import Mathlib

/-!
Verification of the message-template engine of `src/pages/Mensagens.tsx`.

Strings are modelled as `List Char` (`Str`).  The JavaScript constructs are
embedded as executable Lean functions:

* `scanMarkers` embeds `content.match(/\[(.*?)\]/g)`: a lazy scan that, at each
  unconsumed `[`, captures up to the first following `]`, failing on a newline
  or the end of the string (`.` does not match a newline).
* `parseVars` embeds `[...new Set(matches)].map(v => v.slice(1, -1))`:
  first-occurrence-ordered deduplication of the matched markers.
* `replaceAll` embeds `message.replace(new RegExp("\\[k\\]", "g"), e)`:
  leftmost non-overlapping global matching of the pattern, with the
  replacement string expanded by the `$`-escape rules of
  `String.prototype.replace` (`expandRepl`).  The matcher treats the pattern
  as the literal text `[k]`; this is exactly what the constructed regex
  denotes whenever the name `k` contains no regex metacharacter (`rsName`),
  and every general theorem about rendering below carries that hypothesis on
  the names it quantifies over.  Names with metacharacters (for which the
  dynamic regex diverges from — or fails to denote — a literal pattern) are
  outside the domain of those theorems.
* `render` embeds the `generatedMessage` `useMemo`: a left fold of the
  per-variable replacement, where an absent or empty binding substitutes the
  marker text itself (`value || "[key]"`).
* `handleSendWhatsapp`, `handleSelectClienteCore`, `seedNomeCliente`,
  `handleVariableChange` embed the event handlers and the `useEffect` that
  seeds `nome_cliente`.
* `runTrace` gives the event semantics used for the asynchronous-fetch claim:
  `Ev.fetchOk cid data` is the resolution of a previously issued
  `fetchProcessosByCliente(cid)` call; the model requires the resolution to be
  for an actually pending request returning exactly the backing store's rows,
  and applies the source's resolution handler `setProcessos(data)`.
-/

abbrev Str := List Char

def str (s : String) : Str := s.data

/-- Marker text of a placeholder name: the name wrapped in square brackets. -/
def pad (n : Str) : Str := '[' :: (n ++ [']'])

/-- `isPre u s` is true when `u` is a prefix of `s`. -/
def isPre : Str → Str → Bool
  | [], _ => true
  | _ :: _, [] => false
  | a :: as, b :: bs => a == b && isPre as bs

/-- Whether a string contains no `$` (such a replacement string is inserted
verbatim by `String.prototype.replace`). -/
def dollarFree (s : Str) : Bool := s.all (fun c => !(c == '$'))

/-- The `GetSubstitution` expansion of a replacement string, for a regex with
no capture groups: `$$` yields `$`, `$&` the matched text, `$` followed by
an apostrophe the portion of the subject after the match, `$` followed by a
backquote the portion before it; any other `$` (including `$n` and `$<`,
which are only special when groups exist) is literal. -/
def expandRepl (matched before after : Str) : Str → Str
  | [] => []
  | c :: cs =>
    if c == '$' then
      match cs with
      | [] => ['$']
      | d :: ds =>
        if d == '$' then '$' :: expandRepl matched before after ds
        else if d == '&' then matched ++ expandRepl matched before after ds
        else if d == '\x27' then after ++ expandRepl matched before after ds
        else if d == '\x60' then before ++ expandRepl matched before after ds
        else c :: d :: expandRepl matched before after ds
    else c :: expandRepl matched before after cs

/-- Fuel-driven worker for `replaceAll` (the fuel is only there to make the
recursion structural; `replaceAll` always supplies enough).  `pre` is the
portion of the original subject string already scanned, needed by the
`$`-escapes that refer to the text around the match. -/
def repGo (p : Char) (ps e : Str) : Nat → Str → Str → Str
  | _, _, [] => []
  | 0, _, s => s
  | Nat.succ f, pre, c :: cs =>
    if c == p && isPre ps cs then
      expandRepl (p :: ps) pre (cs.drop ps.length) e
        ++ repGo p ps e f (pre ++ (p :: ps)) (cs.drop ps.length)
    else c :: repGo p ps e f (pre ++ [c]) cs

/-- Leftmost non-overlapping global replacement of the literal pattern
`p :: ps` by the `$`-expanded replacement string `e`, as performed by
`String.prototype.replace` with a global group-free regex denoting that
literal pattern. -/
def replaceAll (p : Char) (ps e s : Str) : Str := repGo p ps e s.length [] s

/-- After a `[`, capture the name up to the first `]`; fail on a newline or
the end of input (the lazy group `(.*?)` cannot match `\n`). -/
def findClose : Str → Option (Str × Str)
  | [] => none
  | c :: cs =>
    if c == ']' then some ([], cs)
    else if c == '\n' then none
    else
      match findClose cs with
      | some (n, r) => some (c :: n, r)
      | none => none

/-- Fuel-driven worker for `scanMarkers`. -/
def scanGo : Nat → Str → List Str
  | _, [] => []
  | 0, _ => []
  | Nat.succ f, c :: cs =>
    if c == '[' then
      match findClose cs with
      | some (n, r) => n :: scanGo f r
      | none => scanGo f cs
    else scanGo f cs

/-- All placeholder names matched by `/\[(.*?)\]/g`, in order, with
multiplicity. -/
def scanMarkers (s : Str) : List Str := scanGo s.length s

/-- Insertion step of `new Set(...)`: keep the first occurrence. -/
def insOrd (acc : List Str) (n : Str) : List Str :=
  if n ∈ acc then acc else acc ++ [n]

/-- The `variables` memo: deduplicated placeholder names in first-occurrence
order (JS `Set` preserves insertion order). -/
def parseVars (body : Str) : List Str := (scanMarkers body).foldl insOrd []

/-- `hasSub u s` embeds `s.includes(u)`. -/
def hasSub (u : Str) : Str → Bool
  | [] => u.isEmpty
  | c :: cs => isPre u (c :: cs) || hasSub u cs

/-- The `variableValues` object: an association list whose first entry for a
key wins (later `{...prev, [k]: v}` spreads prepend). -/
abbrev Binds := List (Str × Str)

def bindLookup : Binds → Str → Option Str
  | [], _ => none
  | p :: b, k => if p.1 = k then some p.2 else bindLookup b k

/-- `{...prev, [k]: v}` -/
def setB (b : Binds) (k v : Str) : Binds := (k, v) :: b

/-- `delete obj[k]` -/
def delB (b : Binds) (k : Str) : Binds := b.filter (fun p => decide (p.1 ≠ k))

/-- The bound value, with JS `undefined` read as `""` (both are falsy). -/
def getVal (b : Binds) (n : Str) : Str :=
  match bindLookup b n with
  | some v => v
  | none => []

/-- Whether the binding is present and non-empty (truthy). -/
def hasVal (b : Binds) (n : Str) : Bool := !(getVal b n).isEmpty

/-- `value || "[key]"`: the string actually substituted for the marker. -/
def effVal (b : Binds) (n : Str) : Str :=
  if (getVal b n).isEmpty then pad n else getVal b n

/-- One iteration of the `variables.forEach` loop of `generatedMessage`. -/
def renderStep (b : Binds) (m k : Str) : Str :=
  replaceAll '[' (k ++ [']']) (effVal b k) m

/-- The `generatedMessage` computation for a given template body and binding
map. -/
def render (body : Str) (b : Binds) : Str :=
  (parseVars body).foldl (renderStep b) body

/-- Slot kinds, recovered from the `variables.map` dispatch in the view:
`numero_processo` is the relational select over the recipient's `processos`,
`status_processo` the fixed three-label select, the two `data_*` names are
date pickers, everything else a free-text input. -/
inductive SlotKind
  | RelationalSelect
  | EnumeratedSelect
  | DateKind
  | FreeText
deriving DecidableEq

def classify (n : Str) : SlotKind :=
  if n = str "numero_processo" then .RelationalSelect
  else if n = str "status_processo" then .EnumeratedSelect
  else if n = str "data_audiencia" ∨ n = str "data_vencimento" then .DateKind
  else .FreeText

structure Template where
  id : Str
  title : Str
  content : Str
deriving DecidableEq

structure SupaCliente where
  id : Str
  nome : Str
  telefone : Option Str
deriving DecidableEq

structure SupaProcesso where
  id : Str
  numero : Str
  assunto : Str
  status : Str
  cliente_id : Str
deriving DecidableEq

/-- The component state.  `pendingFetch` records the client ids of issued but
not yet resolved `fetchProcessosByCliente` calls (used only to state which
asynchronous resolutions are possible; the source keeps no such guard). -/
structure MState where
  clientes : List SupaCliente
  templates : List Template
  processos : List SupaProcesso
  selectedCliente : Option SupaCliente
  selectedTemplate : Option Template
  variableValues : Binds
  pendingFetch : List Str
deriving DecidableEq

/-- The `variables` memo of the current state. -/
def variablesOf (st : MState) : List Str :=
  match st.selectedTemplate with
  | none => []
  | some t => parseVars t.content

/-- `handleSelectCliente` (lines 72-88): select the client found by id, clear
the candidate list, delete the two process-scoped bindings, and issue a fetch
when a client was found. -/
def handleSelectClienteCore (st : MState) (cid : Str) : MState :=
  let cliente := st.clientes.find? (fun c => decide (c.id = cid))
  { st with
    selectedCliente := cliente
    processos := []
    variableValues :=
      delB (delB st.variableValues (str "numero_processo")) (str "status_processo")
    pendingFetch :=
      match cliente with
      | some c => st.pendingFetch ++ [c.id]
      | none => st.pendingFetch }

/-- The `useEffect` at lines 163-170: seed `nome_cliente` from the selected
client whenever that placeholder exists. -/
def seedNomeCliente (st : MState) : MState :=
  match st.selectedCliente with
  | some c =>
    if str "nome_cliente" ∈ variablesOf st then
      { st with variableValues := setB st.variableValues (str "nome_cliente") c.nome }
    else st
  | none => st

/-- A recipient change as observed after React settles: the handler followed
by the seeding effect. -/
def selectClienteFull (st : MState) (cid : Str) : MState :=
  seedNomeCliente (handleSelectClienteCore st cid)

/-- `handleVariableChange` (lines 185-187). -/
def handleVariableChange (st : MState) (n v : Str) : MState :=
  { st with variableValues := setB st.variableValues n v }

/-- `generatedMessage` (lines 172-183); `""` without a template. -/
def generatedMessage (st : MState) : Str :=
  match st.selectedTemplate with
  | none => []
  | some t => render t.content st.variableValues

/-- The completion test on a template body: negation of the refusal test at
lines 198-201, `!generatedMessage || variables.some(v =>
generatedMessage.includes("[v]"))`. -/
def completeGateT (body : Str) (b : Binds) : Bool :=
  !((render body b).isEmpty
    || (parseVars body).any (fun v => hasSub (pad v) (render body b)))

/-- The completion test of the current state (with no template the generated
message is `""`, which is falsy, so the gate is closed). -/
def completeGate (st : MState) : Bool :=
  match st.selectedTemplate with
  | none => false
  | some t => completeGateT t.content st.variableValues

def isDigitC (c : Char) : Bool := '0' ≤ c && c ≤ '9'

/-- `(selectedCliente.telefone || "").replace(/\D/g, "")`. -/
def phoneOf (c : SupaCliente) : Str :=
  (match c.telefone with | some t => t | none => []).filter isDigitC

/-- Observable outcome of `handleSendWhatsapp`: one of the three destructive
toasts, or the WhatsApp handoff with the normalized phone and the message. -/
inductive SendResult
  | errNoCliente
  | errIncomplete
  | errNoPhone
  | dispatched (phone msg : Str)
deriving DecidableEq

/-- `handleSendWhatsapp` (lines 189-223).  The phone is
`(telefone || "").replace(/\D/g, "")` and the dispatched address is
`"55" + phone` from the `wa.me/55${phone}` deep link. -/
def handleSendWhatsapp (st : MState) : SendResult :=
  match st.selectedCliente with
  | none => .errNoCliente
  | some c =>
    if !(completeGate st) then .errIncomplete
    else if (phoneOf c).isEmpty then .errNoPhone
    else .dispatched (str "55" ++ phoneOf c) (generatedMessage st)

/-- `setProcessos(data)` at line 153: the resolution handler installs the
fetched rows unconditionally — it never compares the response's client id with
the currently selected client. -/
def resolveFetch (st : MState) (cid : Str) (data : List SupaProcesso) : MState :=
  { st with processos := data, pendingFetch := st.pendingFetch.erase cid }

/-- User / IO events relevant to the race claim. -/
inductive Ev
  | selectCliente (cid : Str)
  | varChange (n v : Str)
  | fetchOk (cid : Str) (data : List SupaProcesso)

def procsFor (db : List (Str × List SupaProcesso)) (cid : Str) : List SupaProcesso :=
  match db.find? (fun p => decide (p.1 = cid)) with
  | some p => p.2
  | none => []

/-- Run a sequence of events.  A `fetchOk` is admissible only when the request
is actually pending and the data is exactly the backing store's rows for that
client; inadmissible traces yield `none`. -/
def runTrace (db : List (Str × List SupaProcesso)) : MState → List Ev → Option MState
  | st, [] => some st
  | st, Ev.selectCliente cid :: evs => runTrace db (selectClienteFull st cid) evs
  | st, Ev.varChange n v :: evs => runTrace db (handleVariableChange st n v) evs
  | st, Ev.fetchOk cid data :: evs =>
    if cid ∈ st.pendingFetch ∧ procsFor db cid = data then
      runTrace db (resolveFetch st cid data) evs
    else none

/-! ### Template decompositions

A `Seg` list is a decomposition of a template body into literal text and
markers.  `segsOK` is the hygiene condition under which the regex scan and the
sequential replacements behave compositionally: literal text contains no `[`,
and names contain no bracket and no newline. -/

inductive Seg
  | lit : Str → Seg
  | mark : Str → Seg
deriving DecidableEq

def flat1 : Seg → Str
  | .lit t => t
  | .mark n => pad n

def flattenSegs : List Seg → Str
  | [] => []
  | s :: L => flat1 s ++ flattenSegs L

def goodName (n : Str) : Bool :=
  n.all (fun c => !(c == '[') && !(c == ']') && !(c == '\n'))

def litOK (t : Str) : Bool := t.all (fun c => !(c == '['))

def segOK : Seg → Bool
  | .lit t => litOK t
  | .mark n => goodName n

def segsOK (L : List Seg) : Bool := L.all segOK

def segNames : List Seg → List Str
  | [] => []
  | .lit _ :: L => segNames L
  | .mark n :: L => n :: segNames L

/-- All binding values are `[`-free. -/
def bindsOK (b : Binds) : Bool := b.all (fun p => litOK p.2)

/-- A character that is neither a regex metacharacter nor a newline: for a
name made only of such characters, `new RegExp("\\[" + name + "\\]", "g")`
denotes the literal pattern `[name]`. -/
def rsChar (c : Char) : Bool :=
  !(c == '\\') && !(c == '^') && !(c == '$') && !(c == '.') && !(c == '|')
    && !(c == '?') && !(c == '*') && !(c == '+') && !(c == '(') && !(c == ')')
    && !(c == '[') && !(c == ']') && !(c == '\x7b') && !(c == '\x7d')
    && !(c == '\n')

/-- A regex-safe placeholder name. -/
def rsName (n : Str) : Bool := n.all rsChar

/-- Every marker name in the decomposition is regex-safe. -/
def segsRS (L : List Seg) : Bool :=
  L.all (fun s => match s with | .lit _ => true | .mark n => rsName n)

/-- All binding values are `$`-free (inserted verbatim by `replace`). -/
def bindsDF (b : Binds) : Bool := b.all (fun p => dollarFree p.2)

/-- The effect of one full rendering pass on a segment: a bound, non-empty
marker becomes its value, any other segment is unchanged. -/
def applyB (b : Binds) : Seg → Seg
  | .lit t => .lit t
  | .mark n => if (getVal b n).isEmpty then .mark n else .lit (getVal b n)

/-- Substitution of the single key `k`. -/
def subK (b : Binds) (k : Str) : Seg → Seg
  | .lit t => .lit t
  | .mark n => if n = k then applyB b (.mark n) else .mark n

/-- Substitution of every key in `ks`. -/
def subKs (b : Binds) (ks : List Str) : Seg → Seg
  | .lit t => .lit t
  | .mark n => if n ∈ ks then applyB b (.mark n) else .mark n

/-- Marker-only view used for the locality claim: every marker other than `n`
is resolved, the `n` markers are left as holes. -/
def maskK (b : Binds) (n : Str) : Seg → Seg
  | .lit t => .lit t
  | .mark m => if m = n then .mark n else applyB b (.mark m)

/-- Fill the `n` holes with a fixed string. -/
def fillK (n e : Str) : Seg → Seg
  | .lit t => .lit t
  | .mark m => if m = n then .lit e else .mark m

/-! ### Concrete instances used by example theorems -/

def clienteA : SupaCliente := ⟨ str "1", str "Ana", some (str "(11) 91234-5678")⟩

def clienteB : SupaCliente := ⟨ str "2", str "Bia", some (str "22")⟩

def tplStatus : Template := ⟨ str "t1", str "Status", str "[status_processo]"⟩

def tplEmpty : Template := ⟨ str "t0", str "Vazio", str ""⟩

def tplA : Template := ⟨ str "t2", str "Saudacao", str "Olá [a]"⟩

def procA : SupaProcesso :=
  ⟨ str "p1", str "111/2024", str "Assunto A", str "Em Andamento", str "1"⟩

def procB : SupaProcesso :=
  ⟨ str "p2", str "222/2024", str "Assunto B", str "Aguardando", str "2"⟩

/-- State for the recipient-switch example: template `[status_processo]`
active, the status bound, client A selected. -/
def stC1 : MState :=
  ⟨[clienteA, clienteB], [tplStatus], [], some clienteA, some tplStatus,
    [(str "status_processo", str "Em Andamento")], []⟩

/-- Backing store for the race example. -/
def dbC2 : List (Str × List SupaProcesso) := [(str "1", [procA]), (str "2", [procB])]

def stC2 : MState := ⟨[clienteA, clienteB], [], [], none, none, [], []⟩

/-- Select client 1, then client 2, then client 1's fetch resolves. -/
def traceC2 : List Ev :=
  [Ev.selectCliente (str "1"), Ev.selectCliente (str "2"), Ev.fetchOk (str "1") [procA]]

/-- State with the empty template active and a selected client with a phone. -/
def stC3 : MState := ⟨[clienteA], [tplEmpty], [], some clienteA, some tplEmpty, [], []⟩

def bodyC5 : Str := str "[b]a][a]"

def bindsC5 : Binds := [(str "b", str "w"), (str "a", str "z")]

def stC6 : MState := ⟨[], [], [], none, none, [], []⟩

/-- State with template `Olá [a]` active, no bindings. -/
def stC7 : MState := ⟨[clienteA], [tplA], [], some clienteA, some tplA, [], []⟩

/-- Same template, `a` bound, ready to dispatch. -/
def stC8 : MState :=
  ⟨[clienteA], [tplA], [], some clienteA, some tplA, [(str "a", str "Maria")], []⟩

def exSegs : List Seg :=
  [Seg.mark (str "a"), Seg.lit (str " fim "), Seg.mark (str "a"), Seg.mark (str "c")]

def exBinds : Binds := [(str "a", str "1"), (str "c", str "2")]

/-! ### Basic lemmas about prefixes and replacement -/

theorem isPre_iff (u : Str) : ∀ s, isPre u s = true ↔ ∃ t, s = u ++ t := by
  induction u with
  | nil =>
    intro s
    constructor
    · intro _
      exact ⟨s, rfl⟩
    · intro _
      rfl
  | cons a as ih =>
    intro s
    cases s with
    | nil =>
      constructor
      · intro h
        simp [isPre] at h
      · rintro ⟨t, ht⟩
        simp at ht
    | cons b bs =>
      simp only [isPre, Bool.and_eq_true, beq_iff_eq, List.cons_append, List.cons.injEq]
      constructor
      · rintro ⟨rfl, h⟩
        obtain ⟨t, rfl⟩ := (ih bs).1 h
        exact ⟨t, rfl, rfl⟩
      · rintro ⟨t, rfl, ht⟩
        exact ⟨rfl, (ih bs).2 ⟨t, ht⟩⟩

theorem isPre_append_self (u : Str) : ∀ v, isPre u (u ++ v) = true := by
  induction u with
  | nil => intro v; rfl
  | cons a as ih => intro v; simp [isPre, ih]

theorem expandRepl_df (m bef aft : Str) :
    ∀ e : Str, dollarFree e = true → expandRepl m bef aft e = e := by
  intro e
  induction e with
  | nil => intro _; rfl
  | cons c cs ih =>
    intro h
    have hc : (c == '$') = false := by
      have := (List.all_eq_true.mp h) c (by simp)
      simpa [Bool.not_eq_true'] using this
    have hcs : dollarFree cs = true := by
      simp only [dollarFree, List.all_cons, Bool.and_eq_true] at h
      exact h.2
    unfold expandRepl
    rw [hc]
    simp only [Bool.false_eq_true, if_false]
    rw [ih hcs]

theorem repGo_pre (p : Char) (ps e : Str) (hdf : dollarFree e = true) :
    ∀ (f : Nat) (pre pre' s : Str), repGo p ps e f pre s = repGo p ps e f pre' s := by
  intro f
  induction f with
  | zero => intro pre pre' s; cases s <;> rfl
  | succ f ih =>
    intro pre pre' s
    cases s with
    | nil => rfl
    | cons c cs =>
      simp only [repGo]
      cases hB : (c == p && isPre ps cs) with
      | false =>
        simp only [Bool.false_eq_true, if_false]
        rw [ih (pre ++ [c]) (pre' ++ [c]) cs]
      | true =>
        simp only [if_true]
        rw [expandRepl_df (p :: ps) pre (cs.drop ps.length) e hdf,
          expandRepl_df (p :: ps) pre' (cs.drop ps.length) e hdf,
          ih (pre ++ (p :: ps)) (pre' ++ (p :: ps)) (cs.drop ps.length)]

theorem repGo_fuel (p : Char) (ps e : Str) :
    ∀ f g pre s, s.length ≤ f → s.length ≤ g →
    repGo p ps e f pre s = repGo p ps e g pre s := by
  intro f
  induction f with
  | zero =>
    intro g pre s hf _
    have hs : s = [] := List.eq_nil_of_length_eq_zero (Nat.le_zero.mp hf)
    subst hs
    cases g <;> rfl
  | succ f ih =>
    intro g pre s hf hg
    cases s with
    | nil => cases g <;> rfl
    | cons c cs =>
      cases g with
      | zero => simp at hg
      | succ g =>
        simp only [List.length_cons, Nat.succ_le_succ_iff] at hf hg
        simp only [repGo]
        cases hB : (c == p && isPre ps cs) with
        | false =>
          simp only [Bool.false_eq_true, if_false]
          rw [ih g (pre ++ [c]) cs hf hg]
        | true =>
          simp only [if_true]
          rw [ih g (pre ++ (p :: ps)) (cs.drop ps.length)
            (le_trans (by simp) hf) (le_trans (by simp) hg)]

theorem replaceAll_nil (p : Char) (ps e : Str) : replaceAll p ps e [] = [] := rfl

theorem replaceAll_cons (p : Char) (ps e : Str) (hdf : dollarFree e = true)
    (c : Char) (cs : Str) :
    replaceAll p ps e (c :: cs) =
      if c == p && isPre ps cs then e ++ replaceAll p ps e (cs.drop ps.length)
      else c :: replaceAll p ps e cs := by
  unfold replaceAll
  simp only [List.length_cons]
  show repGo p ps e (cs.length + 1) [] (c :: cs) = _
  simp only [repGo, List.nil_append]
  cases hB : (c == p && isPre ps cs) with
  | false =>
    simp only [Bool.false_eq_true, if_false]
    rw [repGo_pre p ps e hdf cs.length [c] [] cs]
  | true =>
    simp only [if_true]
    rw [expandRepl_df (p :: ps) [] (cs.drop ps.length) e hdf,
      repGo_pre p ps e hdf cs.length (p :: ps) [] (cs.drop ps.length),
      repGo_fuel p ps e cs.length (cs.drop ps.length).length [] (cs.drop ps.length)
        (by simp) le_rfl]

theorem replaceAll_append_left (p : Char) (ps e : Str) (hdf : dollarFree e = true)
    (u : Str) :
    ∀ r, (∀ c ∈ u, (c == p) = false) → replaceAll p ps e (u ++ r) = u ++ replaceAll p ps e r := by
  induction u with
  | nil => intro r _; rfl
  | cons c u ih =>
    intro r h
    have hc : (c == p) = false := h c (by simp)
    rw [List.cons_append, replaceAll_cons p ps e hdf, hc]
    simp only [Bool.false_and, Bool.false_eq_true, if_false]
    rw [ih r (fun d hd => h d (by simp [hd]))]
    simp

theorem repGo_self (p : Char) (ps : Str) (hdf : dollarFree (p :: ps) = true) :
    ∀ f pre s, s.length ≤ f → repGo p ps (p :: ps) f pre s = s := by
  intro f
  induction f with
  | zero =>
    intro pre s hf
    have hs : s = [] := List.eq_nil_of_length_eq_zero (Nat.le_zero.mp hf)
    subst hs; rfl
  | succ f ih =>
    intro pre s hf
    cases s with
    | nil => rfl
    | cons c cs =>
      simp only [List.length_cons, Nat.succ_le_succ_iff] at hf
      simp only [repGo]
      cases hB : (c == p && isPre ps cs) with
      | false =>
        simp only [Bool.false_eq_true, if_false]
        rw [ih (pre ++ [c]) cs hf]
      | true =>
        simp only [if_true]
        rw [expandRepl_df (p :: ps) pre (cs.drop ps.length) (p :: ps) hdf]
        have hB' := hB
        simp only [Bool.and_eq_true, beq_iff_eq] at hB'
        obtain ⟨hc, hpre⟩ := hB'
        obtain ⟨t, rfl⟩ := (isPre_iff ps cs).1 hpre
        rw [List.drop_left]
        rw [ih (pre ++ (p :: ps)) t (le_trans (by simp) hf)]
        simp [hc]

theorem replaceAll_self (p : Char) (ps : Str) (hdf : dollarFree (p :: ps) = true)
    (s : Str) : replaceAll p ps (p :: ps) s = s :=
  repGo_self p ps hdf s.length [] s le_rfl

theorem pre_marker_eq :
    ∀ (k n r : Str), (∀ c ∈ k, (c == ']') = false) → (∀ c ∈ n, (c == ']') = false) →
    isPre (k ++ [']']) (n ++ (']' :: r)) = true → k = n := by
  intro k
  induction k with
  | nil =>
    intro n r _ hn h
    cases n with
    | nil => rfl
    | cons d n' =>
      simp only [List.nil_append, List.cons_append, isPre, Bool.and_eq_true, beq_iff_eq] at h
      have := hn d (by simp)
      rw [h.1.symm] at this
      simp at this
  | cons a k' ih =>
    intro n r hk hn h
    cases n with
    | nil =>
      simp only [List.cons_append, List.nil_append, isPre, Bool.and_eq_true, beq_iff_eq] at h
      have := hk a (by simp)
      rw [h.1] at this
      simp at this
    | cons d n' =>
      simp only [List.cons_append, isPre, Bool.and_eq_true, beq_iff_eq] at h
      have hk' : ∀ c ∈ k', (c == ']') = false := fun c hc => hk c (by simp [hc])
      have hn' : ∀ c ∈ n', (c == ']') = false := fun c hc => hn c (by simp [hc])
      have := ih n' r hk' hn' h.2
      rw [h.1, this]

theorem hasSub_of_split (t u v : Str) : hasSub t (u ++ (t ++ v)) = true := by
  induction u with
  | nil =>
    have hp : isPre t (t ++ v) = true := isPre_append_self t v
    cases htv : t ++ v with
    | nil =>
      have ht : t = [] := by
        cases t with
        | nil => rfl
        | cons c cs => simp at htv
      subst ht
      rfl
    | cons c cs =>
      rw [htv] at hp
      simp [hasSub, hp]
  | cons c u ih =>
    simp [hasSub, ih]

theorem hasSub_exists (t : Str) : ∀ s, hasSub t s = true → ∃ u v, s = u ++ (t ++ v) := by
  intro s
  induction s with
  | nil =>
    intro h
    cases t with
    | nil => exact ⟨[], [], rfl⟩
    | cons c cs => simp [hasSub, List.isEmpty] at h
  | cons c cs ih =>
    intro h
    simp only [hasSub, Bool.or_eq_true] at h
    cases h with
    | inl hp =>
      obtain ⟨v, hv⟩ := (isPre_iff t (c :: cs)).1 hp
      exact ⟨[], v, by simp [hv]⟩
    | inr hs =>
      obtain ⟨u, v, huv⟩ := ih hs
      exact ⟨c :: u, v, by simp [huv]⟩

/-! ### Lemmas about the marker scanner -/

theorem findClose_length : ∀ (cs n r : Str), findClose cs = some (n, r) → r.length < cs.length := by
  intro cs
  induction cs with
  | nil => intro n r h; exact absurd h (by simp [findClose])
  | cons c cs ih =>
    intro n r h
    by_cases hc1 : (c == ']') = true
    · simp only [findClose, hc1, if_true, Option.some.injEq, Prod.mk.injEq] at h
      rw [← h.2]
      simp
    · by_cases hc2 : (c == '\n') = true
      · simp [findClose, hc1, hc2] at h
      · cases hfc : findClose cs with
        | none => simp [findClose, hc1, hc2, hfc] at h
        | some pr =>
          obtain ⟨n', r'⟩ := pr
          simp only [findClose, hc1, hc2, hfc, Bool.false_eq_true, if_false,
            Option.some.injEq, Prod.mk.injEq] at h
          rw [← h.2]
          exact Nat.lt_succ_of_lt (ih n' r' hfc)

theorem scanGo_fuel : ∀ f g s, s.length ≤ f → s.length ≤ g → scanGo f s = scanGo g s := by
  intro f
  induction f with
  | zero =>
    intro g s hf _
    have hs : s = [] := List.eq_nil_of_length_eq_zero (Nat.le_zero.mp hf)
    subst hs
    cases g <;> rfl
  | succ f ih =>
    intro g s hf hg
    cases s with
    | nil => cases g <;> rfl
    | cons c cs =>
      cases g with
      | zero => simp at hg
      | succ g =>
        simp only [List.length_cons, Nat.succ_le_succ_iff] at hf hg
        simp only [scanGo]
        cases hB : (c == '[') with
        | false =>
          simp only [Bool.false_eq_true, if_false]
          exact ih g cs hf hg
        | true =>
          simp only [if_true]
          cases hfc : findClose cs with
          | none => exact ih g cs hf hg
          | some pr =>
            obtain ⟨n, r⟩ := pr
            have hr : r.length < cs.length := findClose_length cs n r hfc
            show n :: scanGo f r = n :: scanGo g r
            rw [ih g r (by omega) (by omega)]

theorem scanMarkers_nil : scanMarkers [] = [] := rfl

theorem scanMarkers_cons (c : Char) (cs : Str) :
    scanMarkers (c :: cs) =
      if c == '[' then
        match findClose cs with
        | some (n, r) => n :: scanMarkers r
        | none => scanMarkers cs
      else scanMarkers cs := by
  unfold scanMarkers
  simp only [List.length_cons]
  show scanGo (cs.length + 1) (c :: cs) = _
  simp only [scanGo]
  cases hB : (c == '[') with
  | false => simp
  | true =>
    simp only [if_true]
    cases hfc : findClose cs with
    | none => rfl
    | some pr =>
      obtain ⟨n, r⟩ := pr
      have hr : r.length < cs.length := findClose_length cs n r hfc
      show n :: scanGo cs.length r = n :: scanMarkers r
      rw [scanGo_fuel cs.length r.length r (by omega) le_rfl]
      rfl

theorem scanMarkers_append_left (u : Str) :
    ∀ r, (∀ c ∈ u, (c == '[') = false) → scanMarkers (u ++ r) = scanMarkers r := by
  induction u with
  | nil => intro r _; rfl
  | cons c u ih =>
    intro r h
    rw [List.cons_append, scanMarkers_cons, h c (by simp)]
    simp only [Bool.false_eq_true, if_false]
    exact ih r (fun d hd => h d (by simp [hd]))

theorem goodName_mem {n : Str} (h : goodName n = true) :
    ∀ c ∈ n, (c == '[') = false ∧ (c == ']') = false ∧ (c == '\n') = false := by
  intro c hc
  have := (List.all_eq_true.mp h) c hc
  simp only [Bool.and_eq_true, Bool.not_eq_true'] at this
  exact ⟨this.1.1, this.1.2, this.2⟩

theorem litOK_mem {t : Str} (h : litOK t = true) : ∀ c ∈ t, (c == '[') = false := by
  intro c hc
  have := (List.all_eq_true.mp h) c hc
  simpa [Bool.not_eq_true'] using this

theorem findClose_marker {n : Str} (h : goodName n = true) :
    ∀ r, findClose (n ++ (']' :: r)) = some (n, r) := by
  induction n with
  | nil => intro r; rfl
  | cons c n ih =>
    intro r
    obtain ⟨_, hc2, hc3⟩ := goodName_mem h c (by simp)
    have hn : goodName n = true := by
      simp only [goodName, List.all_cons, Bool.and_eq_true] at h
      exact h.2
    show findClose (c :: (n ++ (']' :: r))) = some (c :: n, r)
    simp only [findClose, hc2, hc3, Bool.false_eq_true, if_false]
    rw [ih hn r]

theorem segsOK_cons {s : Seg} {L : List Seg} (h : segsOK (s :: L) = true) :
    segOK s = true ∧ segsOK L = true := by
  simp only [segsOK, List.all_cons, Bool.and_eq_true] at h
  exact h

theorem scan_flatten : ∀ (L : List Seg), segsOK L = true →
    scanMarkers (flattenSegs L) = segNames L := by
  intro L
  induction L with
  | nil => intro _; rfl
  | cons s L ih =>
    intro h
    obtain ⟨hs, hL⟩ := segsOK_cons h
    cases s with
    | lit t =>
      show scanMarkers (t ++ flattenSegs L) = segNames (Seg.lit t :: L)
      rw [scanMarkers_append_left t (flattenSegs L) (litOK_mem hs), ih hL]
      rfl
    | mark n =>
      show scanMarkers (pad n ++ flattenSegs L) = segNames (Seg.mark n :: L)
      have hflat : pad n ++ flattenSegs L = '[' :: (n ++ (']' :: flattenSegs L)) := by
        simp [pad]
      rw [hflat, scanMarkers_cons]
      simp only [beq_self_eq_true, if_true]
      rw [findClose_marker hs (flattenSegs L)]
      show n :: scanMarkers (flattenSegs L) = segNames (Seg.mark n :: L)
      rw [ih hL]
      rfl

theorem scan_no_lb : ∀ (s : Str), (∀ c ∈ s, (c == '[') = false) → scanMarkers s = [] := by
  intro s
  induction s with
  | nil => intro _; rfl
  | cons c cs ih =>
    intro h
    rw [scanMarkers_cons, h c (by simp)]
    simp only [Bool.false_eq_true, if_false]
    exact ih (fun d hd => h d (by simp [hd]))

theorem pad_infix_scan {n : Str} (h : goodName n = true) :
    ∀ (u v : Str), scanMarkers (u ++ (pad n ++ v)) ≠ [] := by
  intro u
  induction u with
  | nil =>
    intro v
    have hflat : ([] : Str) ++ (pad n ++ v) = '[' :: (n ++ (']' :: v)) := by simp [pad]
    rw [hflat, scanMarkers_cons]
    simp only [beq_self_eq_true, if_true]
    rw [findClose_marker h v]
    simp
  | cons c u ih =>
    intro v
    rw [List.cons_append, scanMarkers_cons]
    cases hB : (c == '[') with
    | false =>
      simp only [Bool.false_eq_true, if_false]
      exact ih v
    | true =>
      simp only [if_true]
      cases hfc : findClose (u ++ (pad n ++ v)) with
      | none => exact ih v
      | some pr => obtain ⟨n', r⟩ := pr; simp

/-! ### Lemmas about `parseVars` -/

theorem mem_insOrd (acc : List Str) (x n : Str) :
    n ∈ insOrd acc x ↔ n ∈ acc ∨ n = x := by
  unfold insOrd
  by_cases h : x ∈ acc
  · simp only [if_pos h]
    constructor
    · intro hn; exact Or.inl hn
    · rintro (hn | rfl)
      · exact hn
      · exact h
  · simp [if_neg h]

theorem mem_foldl_insOrd : ∀ (l : List Str) (acc : List Str) (n : Str),
    n ∈ List.foldl insOrd acc l ↔ n ∈ acc ∨ n ∈ l := by
  intro l
  induction l with
  | nil => intro acc n; simp
  | cons x l ih =>
    intro acc n
    show n ∈ List.foldl insOrd (insOrd acc x) l ↔ _
    rw [ih (insOrd acc x) n, mem_insOrd]
    simp only [List.mem_cons]
    tauto

theorem nodup_insOrd (acc : List Str) (x : Str) (h : acc.Nodup) : (insOrd acc x).Nodup := by
  unfold insOrd
  by_cases hx : x ∈ acc
  · simpa [if_pos hx] using h
  · simp [if_neg hx, List.nodup_append, h, hx]

theorem nodup_foldl_insOrd : ∀ (l acc : List Str), acc.Nodup →
    (List.foldl insOrd acc l).Nodup := by
  intro l
  induction l with
  | nil => intro acc h; exact h
  | cons x l ih => intro acc h; exact ih (insOrd acc x) (nodup_insOrd acc x h)

theorem mem_parseVars (body : Str) (n : Str) :
    n ∈ parseVars body ↔ n ∈ scanMarkers body := by
  unfold parseVars
  rw [mem_foldl_insOrd]
  simp

theorem nodup_parseVars (body : Str) : (parseVars body).Nodup :=
  nodup_foldl_insOrd (scanMarkers body) [] List.nodup_nil

/-! ### Lemmas about the binding store -/

theorem bindLookup_setB (b : Binds) (k v n : Str) :
    bindLookup (setB b k v) n = if k = n then some v else bindLookup b n := rfl

theorem bindLookup_delB (b : Binds) (k n : Str) :
    bindLookup (delB b k) n = if n = k then none else bindLookup b n := by
  induction b with
  | nil => by_cases h : n = k <;> simp [delB, bindLookup, h]
  | cons p b ih =>
    simp only [delB, List.filter_cons]
    by_cases hpk : p.1 = k
    · have hdec : decide (p.1 ≠ k) = false := by simp [hpk]
      rw [hdec]
      simp only [Bool.false_eq_true, if_false]
      show bindLookup (delB b k) n = _
      rw [ih]
      by_cases hnk : n = k
      · simp [hnk]
      · have hpn : ¬ p.1 = n := by rw [hpk]; exact fun hh => hnk hh.symm
        simp [hnk, bindLookup, hpn]
    · have hdec : decide (p.1 ≠ k) = true := by simp [hpk]
      rw [hdec]
      simp only [if_true]
      show bindLookup (p :: delB b k) n = _
      simp only [bindLookup]
      by_cases hpn : p.1 = n
      · have hnk : ¬ n = k := by rw [← hpn]; exact hpk
        simp [hpn, hnk]
      · simp only [hpn, if_false]
        rw [ih]

theorem getVal_congr {b b' : Binds} {k : Str}
    (h : bindLookup b k = bindLookup b' k) : getVal b k = getVal b' k := by
  simp [getVal, h]

theorem renderStep_congr {b b' : Binds} {k : Str}
    (h : bindLookup b k = bindLookup b' k) (m : Str) :
    renderStep b m k = renderStep b' m k := by
  simp [renderStep, effVal, getVal_congr h]

theorem foldl_renderStep_congr : ∀ (ks : List Str) (b b' : Binds) (m : Str),
    (∀ k ∈ ks, bindLookup b k = bindLookup b' k) →
    List.foldl (renderStep b) m ks = List.foldl (renderStep b') m ks := by
  intro ks
  induction ks with
  | nil => intro b b' m _; rfl
  | cons k ks ih =>
    intro b b' m h
    simp only [List.foldl_cons]
    rw [renderStep_congr (h k (by simp)) m]
    exact ih b b' _ (fun j hj => h j (by simp [hj]))

theorem render_congr {body : Str} {b b' : Binds}
    (h : ∀ k ∈ parseVars body, bindLookup b k = bindLookup b' k) :
    render body b = render body b' :=
  foldl_renderStep_congr (parseVars body) b b' body h

theorem bindsOK_lookup {b : Binds} (h : bindsOK b = true) :
    ∀ n v, bindLookup b n = some v → litOK v = true := by
  induction b with
  | nil => intro n v hv; simp [bindLookup] at hv
  | cons p b ih =>
    intro n v hv
    simp only [bindsOK, List.all_cons, Bool.and_eq_true] at h
    simp only [bindLookup] at hv
    by_cases hp : p.1 = n
    · rw [if_pos hp] at hv
      have : p.2 = v := by injection hv
      rw [← this]
      exact h.1
    · rw [if_neg hp] at hv
      exact ih h.2 n v hv

theorem bindsOK_getVal {b : Binds} (h : bindsOK b = true) (n : Str) :
    litOK (getVal b n) = true := by
  unfold getVal
  cases hb : bindLookup b n with
  | none => rfl
  | some v => exact bindsOK_lookup h n v hb

/-! ### The rendering of a decomposed template -/

theorem mapCongrMem (f g : Seg → Seg) : ∀ (L : List Seg),
    (∀ s ∈ L, f s = g s) → L.map f = L.map g := by
  intro L
  induction L with
  | nil => intro _; rfl
  | cons s L ih =>
    intro h
    simp only [List.map_cons]
    rw [h s (by simp), ih (fun t ht => h t (by simp [ht]))]

theorem map_subK_empty {b : Binds} {k : Str} (h : (getVal b k).isEmpty = true)
    (L : List Seg) : L.map (subK b k) = L := by
  have hid : ∀ s ∈ L, subK b k s = id s := by
    intro s _
    cases s with
    | lit t => rfl
    | mark n =>
      by_cases hn : n = k
      · subst hn; simp [subK, applyB, h]
      · simp [subK, hn]
  rw [mapCongrMem _ id L hid, List.map_id]

theorem segNames_goodName : ∀ (L : List Seg), segsOK L = true →
    ∀ n ∈ segNames L, goodName n = true := by
  intro L
  induction L with
  | nil => intro _ n hn; simp [segNames] at hn
  | cons s L ih =>
    intro h n hn
    obtain ⟨hs, hL⟩ := segsOK_cons h
    cases s with
    | lit t => exact ih hL n hn
    | mark m =>
      simp only [segNames, List.mem_cons] at hn
      cases hn with
      | inl hh => rw [hh]; exact hs
      | inr hh => exact ih hL n hh

theorem mark_mem_segNames : ∀ (L : List Seg) (n : Str), Seg.mark n ∈ L → n ∈ segNames L := by
  intro L
  induction L with
  | nil => intro n hn; simp at hn
  | cons s L ih =>
    intro n hn
    simp only [List.mem_cons] at hn
    cases hn with
    | inl hh => rw [← hh]; simp [segNames]
    | inr hh =>
      cases s with
      | lit t => exact ih n hh
      | mark m => simp only [segNames, List.mem_cons]; exact Or.inr (ih n hh)

theorem rsChar_facts {c : Char} (h : rsChar c = true) :
    (c == '$') = false ∧ (c == '[') = false ∧ (c == ']') = false
      ∧ (c == '\n') = false := by
  refine ⟨?_, ?_, ?_, ?_⟩
  · cases hcd : (c == '$') with
    | false => rfl
    | true => simp [rsChar, hcd] at h
  · cases hcd : (c == '[') with
    | false => rfl
    | true => simp [rsChar, hcd] at h
  · cases hcd : (c == ']') with
    | false => rfl
    | true => simp [rsChar, hcd] at h
  · cases hcd : (c == '\n') with
    | false => rfl
    | true => simp [rsChar, hcd] at h

theorem rsName_goodName {n : Str} (h : rsName n = true) : goodName n = true := by
  simp only [goodName, List.all_eq_true]
  intro c hc
  obtain ⟨_, h2, h3, h4⟩ := rsChar_facts ((List.all_eq_true.mp h) c hc)
  simp [h2, h3, h4]

theorem rsName_pad_df {k : Str} (h : rsName k = true) : dollarFree (pad k) = true := by
  simp only [dollarFree, pad, List.all_cons, List.all_append, Bool.and_eq_true]
  refine ⟨by decide, ?_, by decide⟩
  rw [List.all_eq_true]
  intro c hc
  have h1 := (rsChar_facts ((List.all_eq_true.mp h) c hc)).1
  simp [h1]

theorem segsRS_tail {s : Seg} {L : List Seg} (h : segsRS (s :: L) = true) :
    segsRS L = true := by
  simp only [segsRS, List.all_cons, Bool.and_eq_true] at h
  exact h.2

theorem segsRS_head_mark {m : Str} {L : List Seg} (h : segsRS (Seg.mark m :: L) = true) :
    rsName m = true := by
  simp only [segsRS, List.all_cons, Bool.and_eq_true] at h
  exact h.1

theorem segsRS_names : ∀ (L : List Seg), segsRS L = true →
    ∀ n ∈ segNames L, rsName n = true := by
  intro L
  induction L with
  | nil => intro _ n hn; simp [segNames] at hn
  | cons s L ih =>
    intro h n hn
    cases s with
    | lit t => exact ih (segsRS_tail h) n hn
    | mark m =>
      simp only [segNames, List.mem_cons] at hn
      cases hn with
      | inl hh => rw [hh]; exact segsRS_head_mark h
      | inr hh => exact ih (segsRS_tail h) n hh

theorem bindsDF_lookup {b : Binds} (h : bindsDF b = true) :
    ∀ n v, bindLookup b n = some v → dollarFree v = true := by
  induction b with
  | nil => intro n v hv; simp [bindLookup] at hv
  | cons p b ih =>
    intro n v hv
    simp only [bindsDF, List.all_cons, Bool.and_eq_true] at h
    simp only [bindLookup] at hv
    by_cases hp : p.1 = n
    · rw [if_pos hp] at hv
      have : p.2 = v := by injection hv
      rw [← this]
      exact h.1
    · rw [if_neg hp] at hv
      exact ih h.2 n v hv

theorem bindsDF_getVal {b : Binds} (h : bindsDF b = true) (n : Str) :
    dollarFree (getVal b n) = true := by
  unfold getVal
  cases hb : bindLookup b n with
  | none => rfl
  | some v => exact bindsDF_lookup h n v hb

theorem bindsDF_setB {b : Binds} {v : Str} (hb : bindsDF b = true)
    (hv : dollarFree v = true) (n : Str) : bindsDF (setB b n v) = true := by
  simpa [bindsDF, setB, List.all_cons, hv] using hb

theorem replace_flatten_step_val (b : Binds) (k : Str) (hk : goodName k = true)
    (hdf : dollarFree (getVal b k) = true) (hne : (getVal b k).isEmpty = false) :
    ∀ L : List Seg, segsOK L = true →
    replaceAll '[' (k ++ [']']) (getVal b k) (flattenSegs L) =
      flattenSegs (L.map (subK b k)) := by
  intro L
  induction L with
  | nil => intro _; rfl
  | cons s L ih =>
    intro hL
    obtain ⟨hs, hL'⟩ := segsOK_cons hL
    cases s with
    | lit t =>
      show replaceAll '[' (k ++ [']']) (getVal b k) (t ++ flattenSegs L) =
        t ++ flattenSegs (L.map (subK b k))
      rw [replaceAll_append_left '[' (k ++ [']']) (getVal b k) hdf t (flattenSegs L)
        (litOK_mem hs), ih hL']
    | mark n =>
      by_cases hnk : n = k
      · subst hnk
        show replaceAll '[' (n ++ [']']) (getVal b n)
            ('[' :: ((n ++ [']']) ++ flattenSegs L)) = _
        rw [replaceAll_cons '[' (n ++ [']']) (getVal b n) hdf]
        have hpre : isPre (n ++ [']']) ((n ++ [']']) ++ flattenSegs L) = true :=
          isPre_append_self _ _
        simp only [beq_self_eq_true, hpre, Bool.and_self, if_true]
        rw [List.drop_left, ih hL']
        have hsub : subK b n (Seg.mark n) = Seg.lit (getVal b n) := by
          simp [subK, applyB, hne]
        rw [List.map_cons, hsub]
        rfl
      · show replaceAll '[' (k ++ [']']) (getVal b k)
            ('[' :: ((n ++ [']']) ++ flattenSegs L)) = _
        rw [replaceAll_cons '[' (k ++ [']']) (getVal b k) hdf]
        have hflatn : (n ++ [']']) ++ flattenSegs L = n ++ (']' :: flattenSegs L) := by
          simp
        have hnopre : isPre (k ++ [']']) ((n ++ [']']) ++ flattenSegs L) = false := by
          cases hp : isPre (k ++ [']']) ((n ++ [']']) ++ flattenSegs L) with
          | false => rfl
          | true =>
            rw [hflatn] at hp
            have hkn : k = n := pre_marker_eq k n (flattenSegs L)
              (fun c hc => (goodName_mem hk c hc).2.1)
              (fun c hc => (goodName_mem hs c hc).2.1) hp
            exact absurd hkn.symm hnk
        simp only [hnopre, Bool.and_false, Bool.false_eq_true, if_false]
        have hchars : ∀ c ∈ n ++ [']'], (c == '[') = false := by
          intro c hc
          rcases List.mem_append.mp hc with h1 | h1
          · exact (goodName_mem hs c h1).1
          · simp at h1; subst h1; decide
        rw [replaceAll_append_left '[' (k ++ [']']) (getVal b k) hdf (n ++ [']'])
          (flattenSegs L) hchars, ih hL']
        have hsub : subK b k (Seg.mark n) = Seg.mark n := by simp [subK, hnk]
        rw [List.map_cons, hsub]
        simp [flattenSegs, flat1, pad]

theorem replace_flatten_step (L : List Seg) (b : Binds) (k : Str)
    (hL : segsOK L = true) (hk : goodName k = true)
    (hpd : dollarFree (pad k) = true) (hdfv : dollarFree (getVal b k) = true) :
    replaceAll '[' (k ++ [']']) (effVal b k) (flattenSegs L) =
      flattenSegs (L.map (subK b k)) := by
  cases hemp : (getVal b k).isEmpty with
  | true =>
    rw [map_subK_empty hemp L]
    have heff : effVal b k = pad k := by simp [effVal, hemp]
    rw [heff]
    exact replaceAll_self '[' (k ++ [']']) hpd (flattenSegs L)
  | false =>
    have heff : effVal b k = getVal b k := by simp [effVal, hemp]
    rw [heff]
    exact replace_flatten_step_val b k hk hdfv hemp L hL

theorem segsOK_map_subK {L : List Seg} {b : Binds} {k : Str}
    (hL : segsOK L = true) (hbk : litOK (getVal b k) = true) :
    segsOK (L.map (subK b k)) = true := by
  induction L with
  | nil => rfl
  | cons s L ih =>
    obtain ⟨hs, hL'⟩ := segsOK_cons hL
    have htail := ih hL'
    have hhead : segOK (subK b k s) = true := by
      cases s with
      | lit t => exact hs
      | mark n =>
        by_cases hnk : n = k
        · subst hnk
          cases hemp : (getVal b n).isEmpty with
          | true =>
            have hsub : subK b n (Seg.mark n) = Seg.mark n := by
              simp [subK, applyB, hemp]
            rw [hsub]
            exact hs
          | false =>
            have hsub : subK b n (Seg.mark n) = Seg.lit (getVal b n) := by
              simp [subK, applyB, hemp]
            rw [hsub]
            exact hbk
        · have hsub : subK b k (Seg.mark n) = Seg.mark n := by simp [subK, hnk]
          rw [hsub]
          exact hs
    simp only [List.map_cons, segsOK, List.all_cons, Bool.and_eq_true]
    exact ⟨hhead, htail⟩

theorem render_foldl_segs : ∀ (ks : List Str) (L : List Seg) (b : Binds),
    (∀ k ∈ ks, goodName k = true) → (∀ k ∈ ks, dollarFree (pad k) = true) →
    segsOK L = true → bindsOK b = true → bindsDF b = true →
    List.foldl (renderStep b) (flattenSegs L) ks = flattenSegs (L.map (subKs b ks)) := by
  intro ks
  induction ks with
  | nil =>
    intro L b _ _ _ _ _
    rw [mapCongrMem (subKs b []) id L
      (by intro s _; cases s with | lit t => rfl | mark n => simp [subKs])]
    rw [List.map_id]
    rfl
  | cons k ks ih =>
    intro L b hks hksD hL hb hbD
    simp only [List.foldl_cons]
    have h1 : renderStep b (flattenSegs L) k = flattenSegs (L.map (subK b k)) := by
      unfold renderStep
      exact replace_flatten_step L b k hL (hks k (by simp)) (hksD k (by simp))
        (bindsDF_getVal hbD k)
    rw [h1, ih (L.map (subK b k)) b (fun j hj => hks j (by simp [hj]))
      (fun j hj => hksD j (by simp [hj]))
      (segsOK_map_subK hL (bindsOK_getVal hb k)) hb hbD]
    rw [List.map_map]
    apply congrArg
    apply mapCongrMem
    intro s _
    cases s with
    | lit t => rfl
    | mark n =>
      show subKs b ks (subK b k (Seg.mark n)) = subKs b (k :: ks) (Seg.mark n)
      by_cases hnk : n = k
      · subst hnk
        simp only [subK, if_pos rfl]
        cases hemp : (getVal b n).isEmpty with
        | true => simp [applyB, hemp, subKs]
        | false => simp [applyB, hemp, subKs]
      · have hsub : subK b k (Seg.mark n) = Seg.mark n := by simp [subK, hnk]
        rw [hsub]
        simp only [subKs, List.mem_cons]
        by_cases hmem : n ∈ ks
        · simp [hmem, hnk]
        · simp [hmem, hnk]

theorem render_segs (L : List Seg) (b : Binds)
    (hL : segsOK L = true) (hb : bindsOK b = true)
    (hRS : segsRS L = true) (hDF : bindsDF b = true) :
    render (flattenSegs L) b = flattenSegs (L.map (applyB b)) := by
  unfold render
  have hks : ∀ k ∈ parseVars (flattenSegs L), goodName k = true := by
    intro k hk
    have h1 : k ∈ scanMarkers (flattenSegs L) := (mem_parseVars _ k).mp hk
    rw [scan_flatten L hL] at h1
    exact segNames_goodName L hL k h1
  have hksD : ∀ k ∈ parseVars (flattenSegs L), dollarFree (pad k) = true := by
    intro k hk
    have h1 : k ∈ scanMarkers (flattenSegs L) := (mem_parseVars _ k).mp hk
    rw [scan_flatten L hL] at h1
    exact rsName_pad_df (segsRS_names L hRS k h1)
  rw [render_foldl_segs (parseVars (flattenSegs L)) L b hks hksD hL hb hDF]
  apply congrArg
  apply mapCongrMem
  intro s hsL
  cases s with
  | lit t => rfl
  | mark n =>
    have hn : n ∈ segNames L := mark_mem_segNames L n hsL
    have hmem : n ∈ parseVars (flattenSegs L) := by
      rw [mem_parseVars, scan_flatten L hL]
      exact hn
    simp [subKs, hmem]

/-! ### Derived facts about resolved renderings -/

theorem hasVal_isEmpty_false {b : Binds} {k : Str} (h : hasVal b k = true) :
    (getVal b k).isEmpty = false := by
  unfold hasVal at h
  cases hv : (getVal b k).isEmpty with
  | false => rfl
  | true => rw [hv] at h; simp at h

theorem hasVal_false_isEmpty {b : Binds} {k : Str} (h : hasVal b k = false) :
    (getVal b k).isEmpty = true := by
  unfold hasVal at h
  cases hv : (getVal b k).isEmpty with
  | true => rfl
  | false => rw [hv] at h; simp at h

theorem effVal_pad_of_unbound {b : Binds} {k : Str} (h : hasVal b k = false) :
    effVal b k = pad k := by
  simp [effVal, hasVal_false_isEmpty h]

theorem applyB_mark_unbound {b : Binds} {n : Str} (h : hasVal b n = false) :
    applyB b (Seg.mark n) = Seg.mark n := by
  simp [applyB, hasVal_false_isEmpty h]

theorem applyB_mark_bound {b : Binds} {n : Str} (h : hasVal b n = true) :
    applyB b (Seg.mark n) = Seg.lit (getVal b n) := by
  simp [applyB, hasVal_isEmpty_false h]

theorem segNames_mem_mark : ∀ (L : List Seg) (n : Str), n ∈ segNames L → Seg.mark n ∈ L := by
  intro L
  induction L with
  | nil => intro n hn; simp [segNames] at hn
  | cons s L ih =>
    intro n hn
    cases s with
    | lit t => exact List.mem_cons_of_mem _ (ih n hn)
    | mark m =>
      simp only [segNames, List.mem_cons] at hn
      cases hn with
      | inl hh => subst hh; exact List.mem_cons_self _ _
      | inr hh => exact List.mem_cons_of_mem _ (ih n hh)

theorem mark_flatten_infix : ∀ (M : List Seg) (n : Str), Seg.mark n ∈ M →
    ∃ u v, flattenSegs M = u ++ (pad n ++ v) := by
  intro M
  induction M with
  | nil => intro n hn; simp at hn
  | cons s M ih =>
    intro n hn
    simp only [List.mem_cons] at hn
    cases hn with
    | inl hh => subst hh; exact ⟨[], flattenSegs M, rfl⟩
    | inr hh =>
      obtain ⟨u, v, huv⟩ := ih n hh
      refine ⟨flat1 s ++ u, v, ?_⟩
      rw [show flattenSegs (s :: M) = flat1 s ++ flattenSegs M from rfl, huv,
        List.append_assoc]

theorem flatten_applyB_no_lb : ∀ (L : List Seg) (b : Binds), segsOK L = true →
    bindsOK b = true → (∀ n ∈ segNames L, hasVal b n = true) →
    ∀ c ∈ flattenSegs (L.map (applyB b)), (c == '[') = false := by
  intro L
  induction L with
  | nil => intro b _ _ _ c hc; simp [flattenSegs] at hc
  | cons s L ih =>
    intro b hL hb hall c hc
    obtain ⟨hs, hL'⟩ := segsOK_cons hL
    have htail : ∀ n ∈ segNames L, hasVal b n = true := by
      intro n hn
      cases s with
      | lit t => exact hall n hn
      | mark m => exact hall n (by simp [segNames, hn])
    rw [show flattenSegs ((s :: L).map (applyB b))
        = flat1 (applyB b s) ++ flattenSegs (L.map (applyB b)) from rfl] at hc
    rcases List.mem_append.mp hc with h1 | h1
    · cases s with
      | lit t => exact litOK_mem hs c h1
      | mark m =>
        have hbm : hasVal b m = true := hall m (by simp [segNames])
        rw [applyB_mark_bound hbm] at h1
        exact litOK_mem (bindsOK_getVal hb m) c h1
    · exact ih b hL' hb htail c h1

theorem no_lb_no_pad {s : Str} (h : ∀ c ∈ s, (c == '[') = false) (n : Str) :
    hasSub (pad n) s = false := by
  cases hP : hasSub (pad n) s with
  | false => rfl
  | true =>
    obtain ⟨u, v, huv⟩ := hasSub_exists (pad n) s hP
    have hlb : (('[' : Char) == '[') = false := h '[' (by rw [huv]; simp [pad])
    simp at hlb

theorem flatten_map_eq (f g : Seg → Seg) : ∀ L : List Seg,
    (∀ s ∈ L, flat1 (f s) = flat1 (g s)) →
    flattenSegs (L.map f) = flattenSegs (L.map g) := by
  intro L
  induction L with
  | nil => intro _; rfl
  | cons s L ih =>
    intro h
    show flat1 (f s) ++ flattenSegs (L.map f) = flat1 (g s) ++ flattenSegs (L.map g)
    rw [h s (by simp), ih (fun t ht => h t (by simp [ht]))]

theorem flat1_applyB (b : Binds) (m : Str) :
    flat1 (applyB b (Seg.mark m)) = effVal b m := by
  cases hemp : (getVal b m).isEmpty with
  | true => simp [applyB, hemp, effVal, flat1]
  | false => simp [applyB, hemp, effVal, flat1]

theorem getVal_setB_ne {n m : Str} (h : n ≠ m) (b : Binds) (v : Str) :
    getVal (setB b n v) m = getVal b m := by
  simp [getVal, bindLookup_setB, h]

theorem bindsOK_setB {b : Binds} {v : Str} (hb : bindsOK b = true)
    (hv : litOK v = true) (n : Str) : bindsOK (setB b n v) = true := by
  simpa [bindsOK, setB, List.all_cons, hv] using hb

theorem foldl_renderStep_id {b : Binds} : ∀ (ks : List Str) (m : Str),
    (∀ k ∈ ks, hasVal b k = false ∧ dollarFree (pad k) = true) →
    List.foldl (renderStep b) m ks = m := by
  intro ks
  induction ks with
  | nil => intro m _; rfl
  | cons k ks ih =>
    intro m h
    simp only [List.foldl_cons]
    have hstep : renderStep b m k = m := by
      unfold renderStep
      rw [effVal_pad_of_unbound (h k (by simp)).1]
      exact replaceAll_self '[' (k ++ [']']) (h k (by simp)).2 m
    rw [hstep]
    exact ih m (fun j hj => h j (by simp [hj]))

/-! ### Claim theorems -/

/-- C9: `parseVars` returns the distinct placeholder names in first-occurrence
order: the result is duplicate-free and contains exactly the scanned names; a
body whose scan finds no marker yields the empty sequence; two markers with
the same enclosed text yield one name regardless of position; adjacent markers
need no separating whitespace. -/
theorem c9_parser_first_occurrence :
    (∀ body : Str, (parseVars body).Nodup)
    ∧ (∀ (body : Str) (n : Str), n ∈ parseVars body ↔ n ∈ scanMarkers body)
    ∧ (∀ body : Str, scanMarkers body = [] → parseVars body = [])
    ∧ parseVars (str "Sem marcador algum, texto plano.") = []
    ∧ parseVars (str "[a] meio [a]") = [str "a"]
    ∧ parseVars (str "[a][b]") = [str "a", str "b"]
    ∧ parseVars (str "[b][a][b]") = [str "b", str "a"] := by
  refine ⟨nodup_parseVars, mem_parseVars, ?_, by decide, by decide, by decide, by decide⟩
  intro body h
  unfold parseVars
  rw [h]
  rfl

/-- Witness for C9's no-marker case at a concrete body. -/
theorem c9_parser_first_occurrence_witness : parseVars (str "texto sem nada") = [] :=
  c9_parser_first_occurrence.2.2.1 (str "texto sem nada") (by decide)

/-- C4 counterexample: the placeholder `a` is bound to the non-empty value
`$&`, yet `replace` expands `$&` to the matched text, so the rendered output
is the marker `[a]` itself — the marker is not substituted with the bound
value (whose `$` appears nowhere in the output). -/
theorem c4_dollar_cex :
    hasVal [(str "a", str "$&")] (str "a") = true
    ∧ render (str "[a]") [(str "a", str "$&")] = str "[a]"
    ∧ hasSub (str "$") (render (str "[a]") [(str "a", str "$&")]) = false := by
  refine ⟨by decide, by decide, by decide⟩

/-- C4 (amended): for placeholder names free of regex metacharacters (for
which the dynamically built regex denotes the literal marker), rendering with
no placeholder bound returns the body unchanged; bound non-empty values are
substituted at every occurrence of the marker ( `[a] e [a]` with `a ↦ X`
gives `X e X` ), and the specification's scenario renders exactly.  Values
containing `$` are substituted under the `$`-escape rules of `replace`, not
verbatim. -/
theorem c4_render_substitution_amended :
    (∀ (body : Str) (b : Binds),
      (∀ k ∈ parseVars body, hasVal b k = false ∧ rsName k = true) →
      render body b = body)
    ∧ render
        (str "Olá [nome_cliente], seu processo [numero_processo] está [status_processo].")
        [(str "nome_cliente", str "Maria"), (str "numero_processo", str "123/2024"),
          (str "status_processo", str "Em Andamento")]
        = str "Olá Maria, seu processo 123/2024 está Em Andamento."
    ∧ render (str "[a] e [a]") [(str "a", str "X")] = str "X e X" := by
  refine ⟨?_, by decide, by decide⟩
  intro body b h
  exact foldl_renderStep_id (parseVars body) body
    (fun k hk => ⟨(h k hk).1, rsName_pad_df (h k hk).2⟩)

/-- Witness for C4's amended unbound-preservation clause. -/
theorem c4_render_substitution_amended_witness :
    render (str "a [x] b") [] = str "a [x] b" :=
  c4_render_substitution_amended.1 (str "a [x] b") [] (by decide)

/-- C7 counterexample: `handleVariableChange` for a name absent from the
current template's placeholders stores the binding anyway — the stored state
is affected, contradicting the claimed no-op (and nothing is logged). -/
theorem c7_mismatch_stored_cex :
    variablesOf stC7 = [str "a"]
    ∧ bindLookup stC7.variableValues (str "zz") = none
    ∧ bindLookup (handleVariableChange stC7 (str "zz") (str "v")).variableValues
        (str "zz") = some (str "v") := by
  refine ⟨by decide, rfl, by decide⟩

/-- C7 (amended): setting a value for a name not among the current template's
placeholders stores the binding but leaves the rendered message unchanged; no
user-facing rejection is produced (the handler is total and returns normally). -/
theorem c7_mismatch_amended (st : MState) (n v : Str) (h : n ∉ variablesOf st) :
    generatedMessage (handleVariableChange st n v) = generatedMessage st := by
  cases htpl : st.selectedTemplate with
  | none => simp [generatedMessage, handleVariableChange, htpl]
  | some t =>
    have hvars : variablesOf st = parseVars t.content := by simp [variablesOf, htpl]
    simp only [generatedMessage, handleVariableChange, htpl]
    apply render_congr
    intro k hk
    rw [bindLookup_setB]
    have hnk : ¬ n = k := by
      intro hh
      subst hh
      exact h (by rw [hvars]; exact hk)
    rw [if_neg hnk]

/-- Witness for C7's amended claim. -/
theorem c7_mismatch_amended_witness :
    generatedMessage (handleVariableChange stC7 (str "zz") (str "v"))
      = generatedMessage stC7 :=
  c7_mismatch_amended stC7 (str "zz") (str "v") (by decide)

/-- C5 (amended): rendering is deterministic; and when the body decomposes
into `[`-free literal text and regex-safe marker names (no metacharacter, so
the dynamic regex denotes the literal marker), with every bound value —
including the changed one — free of `[` and of `$` (so it is inserted
verbatim), the output for any binding of `n` is the same context piece list
`L.map (maskK b n)` with only the `n`-holes filled — so changing only `n`'s
binding changes the output only at the occurrences of `n`'s marker. -/
theorem c5_render_locality_amended (L : List Seg) (b : Binds) (n v : Str)
    (hL : segsOK L = true) (hb : bindsOK b = true) (hv : litOK v = true)
    (hRS : segsRS L = true) (hDF : bindsDF b = true) (hvD : dollarFree v = true) :
    (render (flattenSegs L) b = render (flattenSegs L) b)
    ∧ render (flattenSegs L) b
        = flattenSegs ((L.map (maskK b n)).map (fillK n (effVal b n)))
    ∧ render (flattenSegs L) (setB b n v)
        = flattenSegs ((L.map (maskK b n)).map (fillK n (effVal (setB b n v) n))) := by
  refine ⟨rfl, ?_, ?_⟩
  · rw [render_segs L b hL hb hRS hDF, List.map_map]
    apply flatten_map_eq
    intro s _
    cases s with
    | lit t => rfl
    | mark m =>
      by_cases hmn : m = n
      · subst hmn
        rw [flat1_applyB]
        simp [maskK, fillK, flat1]
      · have h1 : maskK b n (Seg.mark m) = applyB b (Seg.mark m) := by simp [maskK, hmn]
        show flat1 (applyB b (Seg.mark m)) = flat1 (fillK n (effVal b n) (maskK b n (Seg.mark m)))
        rw [h1]
        cases hemp : (getVal b m).isEmpty with
        | true => simp [applyB, hemp, fillK, hmn]
        | false => simp [applyB, hemp, fillK]
  · rw [render_segs L (setB b n v) hL (bindsOK_setB hb hv n) hRS
      (bindsDF_setB hDF hvD n), List.map_map]
    apply flatten_map_eq
    intro s _
    cases s with
    | lit t => rfl
    | mark m =>
      by_cases hmn : m = n
      · subst hmn
        rw [flat1_applyB]
        simp [maskK, fillK, flat1]
      · have h1 : maskK b n (Seg.mark m) = applyB b (Seg.mark m) := by simp [maskK, hmn]
        have h2 : applyB (setB b n v) (Seg.mark m) = applyB b (Seg.mark m) := by
          have hgv := getVal_setB_ne (fun hh => hmn hh.symm) b v
          simp [applyB, hgv]
        show flat1 (applyB (setB b n v) (Seg.mark m))
          = flat1 (fillK n (effVal (setB b n v) n) (maskK b n (Seg.mark m)))
        rw [h2, h1]
        cases hemp : (getVal b m).isEmpty with
        | true => simp [applyB, hemp, fillK, hmn]
        | false => simp [applyB, hemp, fillK]

/-- Witness for C5's amended claim at a concrete decomposition. -/
theorem c5_render_locality_amended_witness :
    segsOK exSegs = true ∧ bindsOK exBinds = true ∧ segsRS exSegs = true
    ∧ bindsDF exBinds = true
    ∧ render (flattenSegs exSegs) (setB exBinds (str "a") (str "9"))
        = flattenSegs ((exSegs.map (maskK exBinds (str "a"))).map
            (fillK (str "a") (effVal (setB exBinds (str "a") (str "9")) (str "a")))) := by
  have h := c5_render_locality_amended exSegs exBinds (str "a") (str "9")
    (by decide) (by decide) (by decide) (by decide) (by decide) (by decide)
  exact ⟨by decide, by decide, by decide, by decide, h.2.2⟩

/-- C5 counterexample: two binding maps that differ only at `b` render the
template text outside `[b]`'s occurrences differently: under `b ↦ "w"` the
text after the `[b]` marker survives as `a]z` in the output, while under
`b ↦ "["` the output is `zz`, which contains `a]z` nowhere — so the change is
not confined to the occurrences of `b`'s marker. -/
theorem c5_locality_cex :
    render bodyC5 bindsC5 = str "wa]z"
    ∧ render bodyC5 (setB bindsC5 (str "b") (str "[")) = str "zz"
    ∧ hasSub (str "a]z") (render bodyC5 bindsC5) = true
    ∧ hasSub (str "a]z") (render bodyC5 (setB bindsC5 (str "b") (str "["))) = false := by
  refine ⟨by decide, by decide, by decide, by decide⟩

/-! ### The recipient-switch transition -/

theorem variablesOf_core (st : MState) (cid : Str) :
    variablesOf (handleSelectClienteCore st cid) = variablesOf st := rfl

theorem vv_full_none (st : MState) (cid : Str)
    (hfind : st.clientes.find? (fun x => decide (x.id = cid)) = none) :
    (selectClienteFull st cid).variableValues
      = delB (delB st.variableValues (str "numero_processo")) (str "status_processo") := by
  simp [selectClienteFull, seedNomeCliente, handleSelectClienteCore, hfind]

theorem vv_full_some (st : MState) (cid : Str) (c : SupaCliente)
    (hfind : st.clientes.find? (fun x => decide (x.id = cid)) = some c) :
    (selectClienteFull st cid).variableValues
      = if str "nome_cliente" ∈ variablesOf st then
          setB (delB (delB st.variableValues (str "numero_processo"))
            (str "status_processo")) (str "nome_cliente") c.nome
        else
          delB (delB st.variableValues (str "numero_processo")) (str "status_processo") := by
  have hsel : (handleSelectClienteCore st cid).selectedCliente = some c := by
    simp [handleSelectClienteCore, hfind]
  have hvv : (handleSelectClienteCore st cid).variableValues
      = delB (delB st.variableValues (str "numero_processo")) (str "status_processo") := by
    simp [handleSelectClienteCore]
  have hvars := variablesOf_core st cid
  by_cases hnc : str "nome_cliente" ∈ variablesOf st
  · simp [selectClienteFull, seedNomeCliente, hsel, hvv, hvars, hnc]
  · simp [selectClienteFull, seedNomeCliente, hsel, hvv, hvars, hnc]

theorem lookup_dd (vvv : Binds) (v : Str) (h1 : v ≠ str "numero_processo")
    (h2 : v ≠ str "status_processo") :
    bindLookup (delB (delB vvv (str "numero_processo")) (str "status_processo")) v
      = bindLookup vvv v := by
  rw [bindLookup_delB, if_neg h2, bindLookup_delB, if_neg h1]

theorem lookup_dd_np (vvv : Binds) :
    bindLookup (delB (delB vvv (str "numero_processo")) (str "status_processo"))
      (str "numero_processo") = none := by
  rw [bindLookup_delB, if_neg (by decide), bindLookup_delB, if_pos rfl]

theorem lookup_dd_sp (vvv : Binds) :
    bindLookup (delB (delB vvv (str "numero_processo")) (str "status_processo"))
      (str "status_processo") = none := by
  rw [bindLookup_delB, if_pos rfl]

theorem lookup_full_np (st : MState) (cid : Str) :
    bindLookup (selectClienteFull st cid).variableValues (str "numero_processo") = none := by
  cases hfind : st.clientes.find? (fun x => decide (x.id = cid)) with
  | none => rw [vv_full_none st cid hfind]; exact lookup_dd_np _
  | some c =>
    rw [vv_full_some st cid c hfind]
    by_cases hnc : str "nome_cliente" ∈ variablesOf st
    · rw [if_pos hnc, bindLookup_setB, if_neg (by decide)]
      exact lookup_dd_np _
    · rw [if_neg hnc]
      exact lookup_dd_np _

theorem lookup_full_sp (st : MState) (cid : Str) :
    bindLookup (selectClienteFull st cid).variableValues (str "status_processo") = none := by
  cases hfind : st.clientes.find? (fun x => decide (x.id = cid)) with
  | none => rw [vv_full_none st cid hfind]; exact lookup_dd_sp _
  | some c =>
    rw [vv_full_some st cid c hfind]
    by_cases hnc : str "nome_cliente" ∈ variablesOf st
    · rw [if_pos hnc, bindLookup_setB, if_neg (by decide)]
      exact lookup_dd_sp _
    · rw [if_neg hnc]
      exact lookup_dd_sp _

theorem lookup_full_other (st : MState) (cid : Str) (v : Str)
    (h1 : v ≠ str "numero_processo") (h2 : v ≠ str "status_processo")
    (h3 : v ≠ str "nome_cliente") :
    bindLookup (selectClienteFull st cid).variableValues v
      = bindLookup st.variableValues v := by
  cases hfind : st.clientes.find? (fun x => decide (x.id = cid)) with
  | none => rw [vv_full_none st cid hfind]; exact lookup_dd st.variableValues v h1 h2
  | some c =>
    rw [vv_full_some st cid c hfind]
    by_cases hnc : str "nome_cliente" ∈ variablesOf st
    · rw [if_pos hnc, bindLookup_setB, if_neg (fun hh => h3 hh.symm)]
      exact lookup_dd st.variableValues v h1 h2
    · rw [if_neg hnc]
      exact lookup_dd st.variableValues v h1 h2

theorem lookup_full_nc (st : MState) (cid : Str) :
    ∀ c : SupaCliente, st.clientes.find? (fun x => decide (x.id = cid)) = some c →
    str "nome_cliente" ∈ variablesOf st →
    bindLookup (selectClienteFull st cid).variableValues (str "nome_cliente")
      = some c.nome := by
  intro c hfind hnc
  rw [vv_full_some st cid c hfind, if_pos hnc, bindLookup_setB, if_pos rfl]

theorem processos_full (st : MState) (cid : Str) :
    (selectClienteFull st cid).processos = [] := by
  cases hfind : st.clientes.find? (fun x => decide (x.id = cid)) with
  | none => simp [selectClienteFull, seedNomeCliente, handleSelectClienteCore, hfind]
  | some c =>
    have hsel : (handleSelectClienteCore st cid).selectedCliente = some c := by
      simp [handleSelectClienteCore, hfind]
    have hproc : (handleSelectClienteCore st cid).processos = [] := by
      simp [handleSelectClienteCore]
    by_cases hnc : str "nome_cliente" ∈ variablesOf st
    · simp [selectClienteFull, seedNomeCliente, hsel, variablesOf_core, hnc, hproc]
    · simp [selectClienteFull, seedNomeCliente, hsel, variablesOf_core, hnc, hproc]

/-- C1 (amended): a recipient change clears exactly the `numero_processo`
(RelationalSelect) and `status_processo` (EnumeratedSelect) bindings and
discards the candidate record list; the seeding effect then overwrites
`nome_cliente` with the new recipient's name when that placeholder is present
and the new recipient exists; every other binding — in particular every
Date-kind binding and every FreeText binding other than `nome_cliente` — is
preserved unchanged. -/
theorem c1_recipient_switch_amended (st : MState) (cid : Str) :
    bindLookup (selectClienteFull st cid).variableValues (str "numero_processo") = none
    ∧ bindLookup (selectClienteFull st cid).variableValues (str "status_processo") = none
    ∧ (∀ v : Str, v ≠ str "numero_processo" → v ≠ str "status_processo" →
        v ≠ str "nome_cliente" →
        bindLookup (selectClienteFull st cid).variableValues v
          = bindLookup st.variableValues v)
    ∧ (∀ v : Str, (classify v = SlotKind.DateKind ∨ classify v = SlotKind.FreeText) →
        v ≠ str "nome_cliente" →
        bindLookup (selectClienteFull st cid).variableValues v
          = bindLookup st.variableValues v)
    ∧ (∀ c : SupaCliente, st.clientes.find? (fun x => decide (x.id = cid)) = some c →
        str "nome_cliente" ∈ variablesOf st →
        bindLookup (selectClienteFull st cid).variableValues (str "nome_cliente")
          = some c.nome)
    ∧ (selectClienteFull st cid).processos = [] := by
  refine ⟨lookup_full_np st cid, lookup_full_sp st cid, lookup_full_other st cid,
    ?_, lookup_full_nc st cid, processos_full st cid⟩
  intro v hcls h3
  have h1 : v ≠ str "numero_processo" := by
    intro hh
    subst hh
    rcases hcls with h | h <;> exact absurd h (by decide)
  have h2 : v ≠ str "status_processo" := by
    intro hh
    subst hh
    rcases hcls with h | h <;> exact absurd h (by decide)
  exact lookup_full_other st cid v h1 h2 h3

/-- Witness for C1's amended claim: a free-text binding survives the switch. -/
theorem c1_recipient_switch_amended_witness :
    bindLookup (selectClienteFull stC1 (str "2")).variableValues (str "livre")
      = bindLookup stC1.variableValues (str "livre") :=
  (c1_recipient_switch_amended stC1 (str "2")).2.2.1 (str "livre")
    (by decide) (by decide) (by decide)

/-- C1 counterexample: `status_processo` is an EnumeratedSelect slot, it is
bound before the recipient switch, and the switch clears it — contradicting
the claim that every EnumeratedSelect binding is preserved. -/
theorem c1_enum_cleared_cex :
    classify (str "status_processo") = SlotKind.EnumeratedSelect
    ∧ bindLookup stC1.variableValues (str "status_processo") = some (str "Em Andamento")
    ∧ (selectClienteFull stC1 (str "2")).selectedCliente = some clienteB
    ∧ bindLookup (selectClienteFull stC1 (str "2")).variableValues
        (str "status_processo") = none := by
  refine ⟨by decide, by decide, by decide, by decide⟩

/-- C2 (code bug): after selecting client 1, then client 2, the late
resolution of client 1's fetch installs client 1's records as the candidate
list while client 2 is still the selected recipient — the resolution handler
performs no comparison against the currently selected recipient. -/
theorem c2_stale_fetch_race :
    (runTrace dbC2 stC2 traceC2).map (fun s => (s.selectedCliente, s.processos))
      = some (some clienteB, [procA])
    ∧ procA.cliente_id = str "1"
    ∧ clienteB.id = str "2" := by
  refine ⟨by decide, rfl, rfl⟩

/-! ### Completion and dispatch claims -/

theorem isEmpty_eq_nil : ∀ l : Str, l.isEmpty = true ↔ l = [] := by
  intro l
  cases l <;> simp [List.isEmpty]

/-- C3 (amended): for a template that decomposes into `[`-free literal text
and regex-safe marker names (no metacharacter, so the dynamic regex denotes
the literal marker), with all bound values free of `[` and of `$` (so they
are inserted verbatim), the dispatch gate's completion test holds iff the
rendered output is non-empty and every discovered placeholder has a
non-empty bound value; and all placeholders being bound is equivalent to the
parser finding no marker in the rendered output. -/
theorem c3_complete_iff_amended (L : List Seg) (b : Binds)
    (hL : segsOK L = true) (hb : bindsOK b = true)
    (hRS : segsRS L = true) (hDF : bindsDF b = true) :
    (completeGateT (flattenSegs L) b = true
      ↔ (render (flattenSegs L) b ≠ []
          ∧ ∀ n ∈ parseVars (flattenSegs L), hasVal b n = true))
    ∧ ((∀ n ∈ parseVars (flattenSegs L), hasVal b n = true)
      ↔ scanMarkers (render (flattenSegs L) b) = []) := by
  have hmaster : render (flattenSegs L) b = flattenSegs (L.map (applyB b)) :=
    render_segs L b hL hb hRS hDF
  have hvarsIff : ∀ n : Str, n ∈ parseVars (flattenSegs L) ↔ n ∈ segNames L := by
    intro n
    rw [mem_parseVars, scan_flatten L hL]
  by_cases hall : ∀ n ∈ segNames L, hasVal b n = true
  · have hallP : ∀ n ∈ parseVars (flattenSegs L), hasVal b n = true := by
      intro n hn
      exact hall n ((hvarsIff n).mp hn)
    have hnolb : ∀ c ∈ render (flattenSegs L) b, (c == '[') = false := by
      rw [hmaster]
      exact flatten_applyB_no_lb L b hL hb hall
    have hscan : scanMarkers (render (flattenSegs L) b) = [] := scan_no_lb _ hnolb
    have hany : ((parseVars (flattenSegs L)).any
        (fun v => hasSub (pad v) (render (flattenSegs L) b))) = false := by
      cases hA : ((parseVars (flattenSegs L)).any
          (fun v => hasSub (pad v) (render (flattenSegs L) b))) with
      | false => rfl
      | true =>
        obtain ⟨v, _, hsubv⟩ := List.any_eq_true.mp hA
        rw [no_lb_no_pad hnolb v] at hsubv
        exact absurd hsubv (by simp)
    constructor
    · unfold completeGateT
      rw [hany]
      constructor
      · intro hg
        refine ⟨?_, hallP⟩
        cases hE : (render (flattenSegs L) b).isEmpty with
        | false =>
          intro hnil
          rw [hnil] at hE
          simp [List.isEmpty] at hE
        | true => rw [hE] at hg; simp at hg
      · rintro ⟨hne, _⟩
        cases hE : (render (flattenSegs L) b).isEmpty with
        | false => rfl
        | true => exact absurd ((isEmpty_eq_nil _).mp hE) hne
    · constructor
      · intro _
        exact hscan
      · intro _
        exact hallP
  · push_neg at hall
    obtain ⟨n0, hn0, hnb⟩ := hall
    have hnb' : hasVal b n0 = false := by
      cases hv : hasVal b n0 with
      | false => rfl
      | true => exact absurd hv hnb
    have hmark : Seg.mark n0 ∈ L.map (applyB b) :=
      List.mem_map.mpr ⟨Seg.mark n0, segNames_mem_mark L n0 hn0, applyB_mark_unbound hnb'⟩
    obtain ⟨u, w, huw⟩ := mark_flatten_infix (L.map (applyB b)) n0 hmark
    have hGood : goodName n0 = true := segNames_goodName L hL n0 hn0
    have hscanNe : scanMarkers (render (flattenSegs L) b) ≠ [] := by
      rw [hmaster, huw]
      exact pad_infix_scan hGood u w
    have hsubT : hasSub (pad n0) (render (flattenSegs L) b) = true := by
      rw [hmaster, huw]
      exact hasSub_of_split (pad n0) u w
    have hn0p : n0 ∈ parseVars (flattenSegs L) := (hvarsIff n0).mpr hn0
    have hanyT : ((parseVars (flattenSegs L)).any
        (fun v => hasSub (pad v) (render (flattenSegs L) b))) = true :=
      List.any_eq_true.mpr ⟨n0, hn0p, hsubT⟩
    have hnotall : ¬ ∀ n ∈ parseVars (flattenSegs L), hasVal b n = true := by
      intro hly
      have := hly n0 hn0p
      rw [hnb'] at this
      exact absurd this (by simp)
    constructor
    · unfold completeGateT
      rw [hanyT]
      constructor
      · intro hg
        rw [Bool.or_true] at hg
        simp at hg
      · rintro ⟨_, hly⟩
        exact absurd hly hnotall
    · constructor
      · intro hly
        exact absurd hly hnotall
      · intro hsc
        exact absurd hsc hscanNe

/-- Witness for C3's amended claim at a concrete decomposition. -/
theorem c3_complete_iff_amended_witness :
    segsOK exSegs = true ∧ bindsOK exBinds = true ∧ segsRS exSegs = true
    ∧ bindsDF exBinds = true
    ∧ ((∀ n ∈ parseVars (flattenSegs exSegs), hasVal exBinds n = true)
        ↔ scanMarkers (render (flattenSegs exSegs) exBinds) = []) := by
  have h := c3_complete_iff_amended exSegs exBinds (by decide) (by decide)
    (by decide) (by decide)
  exact ⟨by decide, by decide, by decide, by decide, h.2⟩

/-- C3 counterexample: with the empty template active, every discovered
placeholder (vacuously) has a non-empty value and the rendered output
contains no marker, yet the dispatch gate reports the message incomplete. -/
theorem c3_empty_template_cex :
    parseVars (str "") = []
    ∧ render (str "") [] = []
    ∧ scanMarkers (render (str "") []) = []
    ∧ completeGate stC3 = false := ⟨rfl, rfl, rfl, rfl⟩

/-- C6: when no recipient is selected, or the message is incomplete, or the
selected recipient's contact address normalizes to nothing, the dispatch
handler returns one of the three user-visible rejections and never reaches
the WhatsApp handoff. -/
theorem c6_dispatch_refusal (st : MState)
    (h : st.selectedCliente = none
        ∨ completeGate st = false
        ∨ (∀ c : SupaCliente, st.selectedCliente = some c → phoneOf c = [])) :
    handleSendWhatsapp st = SendResult.errNoCliente
    ∨ handleSendWhatsapp st = SendResult.errIncomplete
    ∨ handleSendWhatsapp st = SendResult.errNoPhone := by
  cases hc : st.selectedCliente with
  | none =>
    left
    simp [handleSendWhatsapp, hc]
  | some c =>
    cases hg : completeGate st with
    | false =>
      right; left
      simp [handleSendWhatsapp, hc, hg]
    | true =>
      have hph : phoneOf c = [] := by
        rcases h with h | h | h
        · rw [hc] at h; exact absurd h (by simp)
        · rw [hg] at h; exact absurd h (by simp)
        · exact h c hc
      right; right
      simp [handleSendWhatsapp, hc, hg, hph]

/-- Witness for C6: with no recipient selected the dispatch is refused. -/
theorem c6_dispatch_refusal_witness :
    handleSendWhatsapp stC6 = SendResult.errNoCliente
    ∨ handleSendWhatsapp stC6 = SendResult.errIncomplete
    ∨ handleSendWhatsapp stC6 = SendResult.errNoPhone :=
  c6_dispatch_refusal stC6 (Or.inl rfl)

/-- C8: whenever the handler reaches the dispatch, the address handed over is
the recipient's contact address with every non-digit removed and the fixed
prefix `55` applied; the specification's punctuation scenario normalizes to
exactly `5511912345678`. -/
theorem c8_normalized_phone :
    (∀ (st : MState) (c : SupaCliente) (p m : Str),
      st.selectedCliente = some c →
      handleSendWhatsapp st = SendResult.dispatched p m →
      p = str "55" ++ phoneOf c)
    ∧ handleSendWhatsapp stC8
        = SendResult.dispatched (str "5511912345678") (str "Olá Maria")
    ∧ phoneOf clienteA = str "11912345678" := by
  refine ⟨?_, by decide, by decide⟩
  intro st c p m hc hd
  simp only [handleSendWhatsapp, hc] at hd
  cases hg : completeGate st with
  | false => rw [hg] at hd; simp at hd
  | true =>
    rw [hg] at hd
    simp only [Bool.not_true, Bool.false_eq_true, if_false] at hd
    cases hph : (phoneOf c).isEmpty with
    | true => rw [hph] at hd; simp at hd
    | false =>
      rw [hph] at hd
      simp only [Bool.false_eq_true, if_false, SendResult.dispatched.injEq] at hd
      exact hd.1.symm

/-- Witness for C8's universal clause at the concrete dispatch state. -/
theorem c8_normalized_phone_witness :
    str "5511912345678" = str "55" ++ phoneOf clienteA :=
  c8_normalized_phone.1 stC8 clienteA (str "5511912345678") (str "Olá Maria")
    rfl (by decide)

/-- C10: with a recipient selected (even one with a usable phone), a template
whose rendering is the empty string is refused with the incomplete-message
rejection, although every discovered placeholder vacuously has a value. -/
theorem c10_empty_render_refused (st : MState) (c : SupaCliente)
    (hc : st.selectedCliente = some c) (_hph : phoneOf c ≠ [])
    (hmsg : generatedMessage st = []) :
    handleSendWhatsapp st = SendResult.errIncomplete := by
  have hg : completeGate st = false := by
    cases htpl : st.selectedTemplate with
    | none => simp [completeGate, htpl]
    | some t =>
      have hr : render t.content st.variableValues = [] := by
        have hh := hmsg
        simp only [generatedMessage, htpl] at hh
        exact hh
      simp [completeGate, htpl, completeGateT, hr, List.isEmpty]
  simp [handleSendWhatsapp, hc, hg]

/-- Witness for C10 at the empty-template state. -/
theorem c10_empty_render_refused_witness :
    handleSendWhatsapp stC3 = SendResult.errIncomplete :=
  c10_empty_render_refused stC3 clienteA rfl (by decide) rfl
